import Mathlib

/-!
Verification of the smol_world embedded object memory (heap, 32-bit `Val`
encoding, collections, copying garbage collector) against its specification.

Definitions are shallow embeddings of the C++ sources:
  * `src/include/Val.hh`        — the 32-bit tagged `Val` encoding,
  * `src/include/Heap.hh`       — bump allocation (`Heap::rawAlloc`),
  * `src/DataWorld/Heap.cc`     — `Heap::existing`, the `GarbageCollector`,
  * `src/src/Collections.cc`    — `Vector::append`, `Dict` operations.

Machine integers are modelled as `Nat` with explicit reduction mod `2^32`
where the C++ code relies on 32-bit wrap-around.
-/

namespace SmolWorld

/-! ### Val encoding (src/include/Val.hh, `ValBase` / `ValBase32`)

A `Val`'s raw bits are a `uintpos` (`uint32_t`); we carry them as a `Nat`
that the constructors keep below `2^32`.
-/

/-- `TagSize = 1` (Val.hh line 84). -/
def TagSize : Nat := 1

/-- `IntTag = 0b001` (Val.hh line 81). -/
def IntTag : Nat := 1

/-- The inline magic encodings (Val.hh lines 86-91). -/
def NullVal : Nat := 0

def NullishVal : Nat := 2

def FalseVal : Nat := 4

def TrueVal : Nat := 6

/-- Reinterpret a `uint32_t` bit pattern as the `int32_t` with the same bits
(the C++ cast `int32_t(_val)`). -/
def toInt32 (n : Nat) : Int :=
  if n < 2 ^ 31 then (n : Int) else (n : Int) - 2 ^ 32

/-- `ValBase(bool b) : _val(b ? TrueVal : FalseVal)` (Val.hh line 63). -/
def ofBoolBits (b : Bool) : Nat := if b then TrueVal else FalseVal

/-- `ValBase(int i) : _val((i << TagSize) | IntTag)` (Val.hh line 64); the
32-bit result of the signed shift is the two's-complement wrap of `2 * i`. -/
def ofIntBits (i : Int) : Nat := ((2 * i) % (2 ^ 32 : Int)).toNat ||| IntTag

/-- `isNull`: `_val == NullVal` (Val.hh line 66). -/
def isNullBits (v : Nat) : Bool := v == NullVal

/-- `isNullish`: `_val == NullishVal` (Val.hh line 67). -/
def isNullishBits (v : Nat) : Bool := v == NullishVal

/-- `isBool`: `_val == FalseVal || _val == TrueVal` (Val.hh line 68). -/
def isBoolBits (v : Nat) : Bool := v == FalseVal || v == TrueVal

/-- `asBool`: `_val > FalseVal` (Val.hh line 69). -/
def asBoolBits (v : Nat) : Bool := v > FalseVal

/-- `isInt`: `(_val & IntTag) != 0` (Val.hh line 70). -/
def isIntBits (v : Nat) : Bool := (v &&& IntTag) != 0

/-- `asInt`: `int32_t(_val) >> TagSize` (Val.hh line 71) — an arithmetic
shift right by one bit, i.e. floor division of the signed value by 2. -/
def asIntBits (v : Nat) : Int := Int.fdiv (toInt32 v) 2

/-- `isObject`: `(_val & IntTag) == 0 && _val > TrueVal` (Val.hh line 72). -/
def isObjectBits (v : Nat) : Bool := (v &&& IntTag) == 0 && v > TrueVal

/-- `explicit operator bool`: `!isNull()` (Val.hh line 77) — a Val is
"truthy" iff it is not `null`. -/
def valTruthy (v : Nat) : Bool := ! isNullBits v

/-! ### Bump allocation (src/include/Heap.hh, `Heap::rawAlloc`)

The heap pointers `_cur` and `_end` are modelled as byte offsets from
`_base`. The alloc-failure handler mutates the heap (typically by a GC or a
`resize`), so it is modelled as a function from the heap state and the
requested size to a `Bool` (retry?) and an updated state. The C++ `do`/
`while` retry loop is given explicit fuel; the claims are stated about one
unfolding, so the fuel never truncates a behaviour they describe. -/

structure AllocHeap where
  curOff : Nat
  endOff : Nat
  deriving DecidableEq, Repr

/-- `bool(*)(Heap*, heapsize)`, allowed to mutate the heap. -/
def AllocHandler : Type := AllocHeap → Nat → Bool × AllocHeap

/-- `Heap::rawAlloc` (Heap.hh lines 164-174):
```
do {
    byte *result = _cur;
    byte *newCur = result + size;
    if (newCur <= _end) { _cur = newCur; return result; }
} while (_allocFailureHandler && _allocFailureHandler(this, size));
return nullptr;
```
Returns the offset of the allocation (or `none` for `nullptr`) and the heap
state after the call. -/
def rawAlloc : Nat → AllocHeap → Option AllocHandler → Nat → Option Nat × AllocHeap
  | fuel, h, handler, size =>
    if h.curOff + size ≤ h.endOff then
      (some h.curOff, { h with curOff := h.curOff + size })
    else
      match handler with
      | none => (none, h)
      | some f =>
          match f h size with
          | (false, h') => (none, h')
          | (true, h') =>
              match fuel with
              | 0 => (none, h')
              | fuel' + 1 => rawAlloc fuel' h' handler size

/-! ### Adopting an existing heap (src/DataWorld/Heap.cc, `Heap::existing`)

`Heap::existing` inspects only the serialized header: the magic number and
the root `Val`. The root is modelled as a `DVal` — either an inline
primitive (null, nullish, bool, int) or an object reference carrying its
decoded heap position and type tag, abstracting `Val::isObject()` /
`Val::asPos()`. -/

/-- The block type tags (`ValType` / `Type`: Float, BigInt, String, Symbol,
Blob, Array, Vector, Dict). -/
inductive DTag where
  | flt
  | bigint
  | str
  | sym
  | blob
  | arr
  | vec
  | dict
  deriving DecidableEq, Repr

/-- A polymorphic value: an inline primitive (carrying its raw bits) or an
object reference (carrying its decoded position and type tag). -/
inductive DVal where
  | prim (bits : Nat)
  | ref (pos : Nat) (tag : DTag)
  deriving DecidableEq, Repr

/-- `Val::isObject()` for the decoded representation. -/
def DVal.isObject : DVal → Bool
  | .prim _ => false
  | .ref _ _ => true

/-- `kMagic = 0xD217904A` (Heap.cc line 11). -/
def kMagic : Nat := 0xD217904A

/-- `sizeof(Header)` — a `uint32_t` magic plus a 32-bit root `Val`. -/
def headerSize : Nat := 8

inductive HeapError where
  | wrongMagic
  | badRootOffset
  deriving DecidableEq, Repr

/-- The state `Heap::existing` returns: `_cur` was advanced by `used`. -/
structure AdoptedHeap where
  used : Nat
  capacity : Nat
  deriving DecidableEq, Repr

/-- `Heap::existing` (Heap.cc lines 37-49):
```
Heap heap(base, capacity, false);
heap._cur += used;
if (header->magic != kMagic) throw "Invalid Heap: wrong magic number";
if (header->root.isObject()) {
    heappos rootPos = header->root.asPos();
    if (rootPos < sizeof(Header) || rootPos >= used)
        throw "Invalid Heap: bad root offset";
}
return heap;
``` -/
def heapExisting (magic : Nat) (root : DVal) (used capacity : Nat) :
    Except HeapError AdoptedHeap :=
  if magic ≠ kMagic then
    .error .wrongMagic
  else
    match root with
    | .ref rootPos _ =>
        if rootPos < headerSize ∨ rootPos ≥ used then .error .badRootOffset
        else .ok ⟨used, capacity⟩
    | .prim _ => .ok ⟨used, capacity⟩

/-! ### Vector (src/src/Collections.cc, `Vector::append` / `Vector::_setSize`)

A Vector block's `Val` slots, carried as their raw 32-bit bit patterns. -/

structure SVector where
  slots : List Nat
  deriving DecidableEq, Repr

/-- Modelled from the spec: `Vector::capacity()` lives in the missing
`Collections.hh`; per §4.3 a Vector block has capacity item slots plus
slot 0, so the capacity is one less than the total slot count. -/
def SVector.capacity (v : SVector) : Nat := v.slots.length - 1

/-- Modelled from the spec: `Vector::size()` lives in the missing
`Collections.hh`; per §4.3 "slot 0 stores current size" as an Int `Val`. -/
def SVector.size (v : SVector) : Nat := (asIntBits (v.slots.getD 0 0)).toNat

/-- `Vector::_setSize` (Collections.cc lines 29-32): `*Collection::begin() =
int(sz)` — writes the size into slot 0 as an Int-encoded `Val`. -/
def SVector.setSize (v : SVector) (sz : Nat) : SVector :=
  ⟨v.slots.set 0 (ofIntBits (sz : Int))⟩

/-- `Vector::append` (Collections.cc lines 50-58):
```
if (auto sz = size(); sz >= capacity()) {
    return false;
} else {
    allItems()[sz + 1] = val;
    _setSize(sz + 1);
    return true;
}
``` -/
def SVector.append (v : SVector) (val : Nat) : Bool × SVector :=
  let sz := v.size
  if sz ≥ v.capacity then (false, v)
  else (true, SVector.setSize ⟨v.slots.set (sz + 1) val⟩ (sz + 1))

/-! ### Dict (src/src/Collections.cc)

A `DictEntry` is a `(key, value)` pair of `Val`s. The key is a `Symbol`
reference compared through `key.block()` (a pointer; `nullptr`, i.e. 0, for
a null key), so it is carried as that pointer value; the value is carried
as its raw bits. -/

structure DictEntry where
  key : Nat
  value : Nat
  deriving DecidableEq, Repr

/-- `keyCmp` / `keyValueCmp` order (Collections.cc lines 64-70): entries are
ordered by `a.key.block() > b.key.block()` — reverse (descending) pointer
order, which places null keys (block `0`) last. -/
def keyValueCmp (a : DictEntry) (b : Nat) : Bool := a.key > b

/-- `_findEntry` (Collections.cc lines 84-86): `std::lower_bound` over the
entries with `keyValueCmp` — the index of the first entry whose key block is
not greater than the probe key (on ranges partitioned by the comparator,
which the Dict invariant guarantees, this is what `std::lower_bound`
returns). -/
def findEntry : List DictEntry → Nat → Nat
  | [], _ => 0
  | e :: es, k => if e.key > k then findEntry es k + 1 else 0

/-- `Dict::find` (Collections.cc lines 116-122): returns the value whose
entry's key equals the probe, if the found position holds it. -/
def dictFind (es : List DictEntry) (k : Nat) : Option Nat :=
  match es[findEntry es k]? with
  | some e => if e.key = k then some e.value else none
  | none => none

/-- `Dict::set` (Collections.cc lines 125-142):
```
if (DictEntry *ep = _findEntry(all, key.block()); ep == all.end()) {
    return false;   // not found, and would go after last item (so dict must be full)
} else if (ep->key == Value(key)) {
    if (insertOnly) return false;
    ep->value = value;
    return true;
} else if (all.back().key == nullval) {
    for (auto p = all.end()-1; p > ep; --p) p[0] = std::move(p[-1]);
    (Val&)ep->key = key;
    ep->value = value;
    return true;
} else {
    return false; // not found, but no room to insert
}
``` -/
def dictSet (es : List DictEntry) (k v : Nat) (insertOnly : Bool) :
    Bool × List DictEntry :=
  let i := findEntry es k
  match es[i]? with
  | none => (false, es)
  | some e =>
      if e.key = k then
        if insertOnly then (false, es)
        else (true, es.set i ⟨k, v⟩)
      else if (es.getLast?.map DictEntry.key) = some 0 then
        (true, es.take i ++ ⟨k, v⟩ :: (es.drop i).dropLast)
      else (false, es)

/-- `Dict::remove` (Collections.cc lines 155-165): on a hit, shift every
later entry up one place and re-initialize the last entry to the default
(null key, null value). -/
def dictRemove (es : List DictEntry) (k : Nat) : Bool × List DictEntry :=
  let i := findEntry es k
  match es[i]? with
  | some e =>
      if e.key = k then (true, es.take i ++ es.drop (i + 1) ++ [⟨0, 0⟩])
      else (false, es)
  | none => (false, es)

/-- The relation consecutive Dict entries satisfy: strictly descending key
blocks, with null (0) keys only in the trailing run. -/
def entryR (a b : DictEntry) : Prop := a.key > b.key ∨ (a.key = 0 ∧ b.key = 0)

instance : DecidableRel entryR := fun a b =>
  inferInstanceAs (Decidable (a.key > b.key ∨ (a.key = 0 ∧ b.key = 0)))

/-- The Dict layout invariant: live entries sorted by strictly descending
key-block position, followed by the trailing null-key sentinel entries. -/
def DictInv (es : List DictEntry) : Prop := List.Chain' entryR es

/-! ### The copying garbage collector (src/DataWorld/Heap.cc)

The from- and to-heaps are modelled as association lists from block
positions to blocks. A block carries its type tag, forwarding slot (0 =
not moved), total byte footprint, and payload. -/

inductive BlockContent where
  | bytes (bs : List Nat)
  | vals (vs : List DVal)
  | dictEntries (es : List (DVal × DVal))
  deriving DecidableEq, Repr

structure Block where
  tag : DTag
  fwd : Nat
  size : Nat
  content : BlockContent
  deriving DecidableEq, Repr

structure GCState where
  fromBlocks : List (Nat × Block)
  toBlocks : List (Nat × Block)
  toUsed : Nat
  deriving DecidableEq, Repr

/-- Association-list lookup: the block stored at position `p`, if any. -/
def lookupB : List (Nat × Block) → Nat → Option Block
  | [], _ => none
  | pb :: l, p => if pb.1 = p then some pb.2 else lookupB l p

/-- `setForwardingAddress`: record the destination position `q` in the
forwarding slot of the block at `p` (a single memory write: only the block
stored at position `p` changes). -/
def setFwd : List (Nat × Block) → Nat → Nat → List (Nat × Block)
  | [], _, _ => []
  | pb :: l, p, q =>
      if pb.1 = p then (pb.1, { pb.2 with fwd := q }) :: l
      else pb :: setFwd l p q

/-- Bump-allocate a block in the to-heap (`String::create` /
`Array::create` both go through `Heap::alloc`): the new block is placed at
the current cursor, which advances by the block's size. -/
def allocTo (st : GCState) (b : Block) : Nat × GCState :=
  (st.toUsed,
   { st with toBlocks := st.toBlocks ++ [(st.toUsed, b)],
             toUsed := st.toUsed + b.size })

/-- Overwrite the payload of the to-heap block at `q` (a single memory
write: only the block stored at position `q` changes). -/
def setToContent : List (Nat × Block) → Nat → BlockContent → List (Nat × Block)
  | [], _, _ => []
  | pb :: l, q, c =>
      if pb.1 = q then (pb.1, { pb.2 with content := c }) :: l
      else pb :: setToContent l q c

inductive GCErr where
  | fuelOut
  | dictAbort
  | badHeap
  deriving DecidableEq, Repr

deriving instance DecidableEq for Except

/-- Scan a list of child `Val`s left to right with the scanner `f`,
threading the collector state (the loop body `(*dstArray)[i] =
scanValue(*iter)` of Heap.cc lines 107-109). -/
def scanListWith (f : GCState → DVal → Except GCErr (DVal × GCState)) :
    GCState → List DVal → Except GCErr (List DVal × GCState)
  | st, [] => .ok ([], st)
  | st, v :: vs =>
      match f st v with
      | .error e => .error e
      | .ok (w, st₁) =>
          match scanListWith f st₁ vs with
          | .error e => .error e
          | .ok (ws, st₂) => .ok (w :: ws, st₂)

/-- `GarbageCollector::scanValue` (Heap.cc lines 87-118), with explicit
fuel bounding the recursion depth:
  * `case ValType::String`: if the source block is already forwarded,
    return a `Val` for the forwarded position; otherwise copy the payload
    into `to` (`String::create(str->get(), &_toHeap)`), record the new
    position in the source block's forwarding slot, and return it;
  * `case ValType::Array`: same, except the destination is created with
    null slots (`Array::create(count, &_toHeap)`), the forwarding slot is
    written *before* the children are scanned, and each child slot is then
    scanned recursively.  Nothing in a scan reads the to-heap, so writing
    all destination slots after the child scans is equivalent to the
    source's one-at-a-time writes;
  * `case ValType::Dict`: `abort(); //TODO`;
  * `default`: the value — an inline primitive or a Float / BigInt /
    Symbol / Blob / Vector reference — is returned unchanged. -/
def scanValue : Nat → GCState → DVal → Except GCErr (DVal × GCState)
  | 0, _, _ => .error .fuelOut
  | fuel + 1, st, v =>
    match v with
    | .prim b => .ok (.prim b, st)
    | .ref p t =>
        match t with
        | .str =>
            match lookupB st.fromBlocks p with
            | none => .error .badHeap
            | some blk =>
                if blk.fwd ≠ 0 then .ok (.ref blk.fwd .str, st)
                else
                  match allocTo st
                      { tag := .str, fwd := 0, size := blk.size,
                        content := blk.content } with
                  | (q, st₁) =>
                      .ok (.ref q .str,
                           { st₁ with fromBlocks := setFwd st₁.fromBlocks p q })
        | .arr =>
            match lookupB st.fromBlocks p with
            | none => .error .badHeap
            | some blk =>
                if blk.fwd ≠ 0 then .ok (.ref blk.fwd .arr, st)
                else
                  match blk.content with
                  | .vals elems =>
                      match allocTo st
                          { tag := .arr, fwd := 0, size := blk.size,
                            content := .vals (List.replicate elems.length
                                              (.prim NullVal)) } with
                      | (q, st₁) =>
                          match scanListWith (scanValue fuel)
                              { st₁ with
                                fromBlocks := setFwd st₁.fromBlocks p q }
                              elems with
                          | .error e => .error e
                          | .ok (ws, st₃) =>
                              .ok (.ref q .arr,
                                   { st₃ with
                                     toBlocks := setToContent st₃.toBlocks q
                                                  (.vals ws) })
                  | _ => .error .badHeap
        | .dict => .error .dictAbort
        | _ => .ok (.ref p t, st)

/-- A heap, for stating whole-collection properties: its blocks, its bump
cursor (`used`), and its root `Val`. -/
structure DHeap where
  blocks : List (Nat × Block)
  used : Nat
  root : DVal
  deriving DecidableEq, Repr

/-- `Heap::reset` (Heap.cc lines 31-34): rewind the cursor to the base and
rewrite the header `{kMagic, root = 0}`. -/
def resetDHeap : DHeap := ⟨[], headerSize, .prim NullVal⟩

/-- `Heap::garbageCollectTo` (Heap.cc lines 126-128): construct a
`GarbageCollector(*this, dstHeap)` and destroy it.
  * the constructor (Heap.cc lines 74-79) resets the to-heap and runs
    `scanRoot()`, which stores `scanValue(from.root)` as the to-heap root;
  * the destructor (GarbageCollector.hh line 48) runs `_fromHeap.reset();
    std::swap(_fromHeap, _toHeap)`, so the client's heap ends up holding
    the relocated objects and the destination argument the reset heap. -/
def garbageCollectTo (fromH dstH : DHeap) (fuel : Nat) :
    Except GCErr (DHeap × DHeap) :=
  let st0 : GCState :=
    { fromBlocks := fromH.blocks, toBlocks := [], toUsed := headerSize }
  match scanValue fuel st0 fromH.root with
  | .error e => .error e
  | .ok (w, st) =>
      .ok (⟨st.toBlocks, st.toUsed, w⟩,
           { dstH with blocks := [], used := headerSize, root := .prim NullVal })

/-- The number of blocks whose forwarding slot is still zero — the
termination measure of the scan. -/
def unfwdCount (l : List (Nat × Block)) : Nat :=
  (l.filter fun pb => pb.2.fwd == 0).length

/-- The termination measure: the number of from-heap blocks whose
forwarding slot is still zero. -/
def unforwarded (st : GCState) : Nat := unfwdCount st.fromBlocks

/-- Total byte footprint of a list of blocks. -/
def sizesSum (l : List (Nat × Block)) : Nat :=
  (l.map fun pb => pb.2.size).sum

/-- Total byte footprint of the already-forwarded blocks. -/
def fwdSizesSum (l : List (Nat × Block)) : Nat :=
  ((l.filter fun pb => pb.2.fwd != 0).map fun pb => pb.2.size).sum

/-- How a single from-heap block may evolve during a scan: tag, size and
payload stay fixed, and a nonzero forwarding slot is never overwritten. -/
def BlockLe (b b' : Block) : Prop :=
  b'.tag = b.tag ∧ b'.size = b.size ∧ b'.content = b.content ∧
  (b.fwd ≠ 0 → b'.fwd = b.fwd)

/-- The pointwise relation `StLe` imposes on from-heap entries. -/
def entLe (pb pb' : Nat × Block) : Prop := pb.1 = pb'.1 ∧ BlockLe pb.2 pb'.2

/-- How the collector state may evolve during a scan: the from-heap keeps
the same blocks at the same positions (only forwarding slots get written),
and the to-heap bump cursor only grows. -/
def StLe (st st' : GCState) : Prop :=
  List.Forall₂ entLe st.fromBlocks st'.fromBlocks ∧ st.toUsed ≤ st'.toUsed

/-- The state of the collector right after `Array::create` in `to` plus
`setForwardingAddress` — before the children are scanned. -/
def arrCopyState (st : GCState) (p : Nat) (blk : Block) (elems : List DVal) :
    GCState :=
  { fromBlocks := setFwd st.fromBlocks p st.toUsed,
    toBlocks := st.toBlocks ++
      [(st.toUsed,
        { tag := .arr, fwd := 0, size := blk.size,
          content := .vals (List.replicate elems.length (.prim NullVal)) })],
    toUsed := st.toUsed + blk.size }

instance dictInvDecidable : (es : List DictEntry) → Decidable (DictInv es)
  | [] => isTrue List.chain'_nil
  | [_] => isTrue (List.chain'_singleton _)
  | a :: b :: es =>
      haveI : Decidable (DictInv (b :: es)) := dictInvDecidable (b :: es)
      decidable_of_iff (entryR a b ∧ DictInv (b :: es)) List.chain'_cons.symm

instance : IsTrans DictEntry entryR where
  trans a b c hab hbc := by
    unfold entryR at *
    omega

/-! ## Theorems

### The `Val` bit encoding -/

theorem even_lor_one {n : Nat} (h : n % 2 = 0) : n ||| 1 = n + 1 := by
  apply Nat.eq_of_testBit_eq
  intro j
  rw [Nat.testBit_lor]
  cases j with
  | zero =>
      rw [Nat.testBit_zero, Nat.testBit_zero, Nat.testBit_zero]
      have h1 : (n + 1) % 2 = 1 := by omega
      simp [h, h1]
  | succ j =>
      rw [Nat.testBit_succ, Nat.testBit_succ, Nat.testBit_succ]
      have h2 : (n + 1) / 2 = n / 2 := by omega
      have h0 : (1 : Nat) / 2 = 0 := by norm_num
      rw [h0, h2]
      simp [Nat.zero_testBit]

theorem ofIntBits_eq (i : Int) :
    ofIntBits i = ((2 * i) % (2 ^ 32 : Int)).toNat + 1 := by
  unfold ofIntBits IntTag
  have heven : ((2 * i) % (2 ^ 32 : Int)).toNat % 2 = 0 := by
    have h2 : (2 * i) % (2 ^ 32 : Int) % 2 = (2 * i) % 2 :=
      Int.emod_emod_of_dvd _ ⟨2 ^ 31, by norm_num⟩
    omega
  rw [even_lor_one heven]

/-- For ints in the representable range, the encoding is `2*i+1` viewed as a
32-bit two's-complement pattern, and decoding recovers `i`. -/
theorem asIntBits_ofIntBits (i : Int) (hlo : -(2 ^ 30) ≤ i) (hhi : i ≤ 2 ^ 30 - 1) :
    asIntBits (ofIntBits i) = i := by
  rw [ofIntBits_eq]
  unfold asIntBits toInt32
  rw [Int.fdiv_eq_ediv _ (by norm_num)]
  split
  · omega
  · omega

/-- The low tag bit of an encoded integer is set. -/
theorem ofIntBits_lowbit (i : Int) : ofIntBits i &&& 1 = 1 := by
  have h1 : (ofIntBits i) % 2 = 1 := by
    rw [ofIntBits_eq]
    have h2 : (2 * i) % (2 ^ 32 : Int) % 2 = (2 * i) % 2 :=
      Int.emod_emod_of_dvd _ ⟨2 ^ 31, by norm_num⟩
    omega
  rw [Nat.and_one_is_mod, h1]

theorem isIntBits_ofIntBits (i : Int) : isIntBits (ofIntBits i) = true := by
  unfold isIntBits IntTag
  rw [ofIntBits_lowbit]
  decide

/-- C8: for every integer `i` with `-2^30 ≤ i ≤ 2^30 - 1`, `Val(i)` has low
tag bit 1, satisfies `isInt()`, and `asInt()` returns exactly `i` — the
encode/decode pair round-trips over the full 31-bit signed range. -/
theorem c8_int_encoding_roundtrip (i : Int)
    (hlo : -(2 ^ 30) ≤ i) (hhi : i ≤ 2 ^ 30 - 1) :
    ofIntBits i &&& 1 = 1 ∧
    isIntBits (ofIntBits i) = true ∧
    asIntBits (ofIntBits i) = i :=
  ⟨ofIntBits_lowbit i, isIntBits_ofIntBits i, asIntBits_ofIntBits i hlo hhi⟩

/-- Witness for C8 at `i = -1073741824` (the minimum) and implicitly the
hypotheses at that input. -/
theorem c8_int_encoding_roundtrip_witness :
    (-(2 ^ 30) ≤ (-1073741824 : Int)) ∧ ((-1073741824 : Int) ≤ 2 ^ 30 - 1) ∧
    (ofIntBits (-1073741824) &&& 1 = 1 ∧
     isIntBits (ofIntBits (-1073741824)) = true ∧
     asIntBits (ofIntBits (-1073741824)) = -1073741824) :=
  ⟨by norm_num, by norm_num,
   c8_int_encoding_roundtrip (-1073741824) (by norm_num) (by norm_num)⟩

/-- C10: boolean conversion of a `Val` is false iff the raw encoding is 0
(null): nullish, `false`, `true`, every integer and every object reference
are all truthy, while `asBool()` reports the encoded boolean. -/
theorem c10_truthiness :
    (∀ v : Nat, valTruthy v = true ↔ v ≠ NullVal) ∧
    valTruthy NullishVal = true ∧
    valTruthy (ofBoolBits false) = true ∧
    valTruthy (ofBoolBits true) = true ∧
    (∀ i : Int, valTruthy (ofIntBits i) = true) ∧
    (∀ v : Nat, isObjectBits v = true → valTruthy v = true) ∧
    asBoolBits (ofBoolBits false) = false ∧
    asBoolBits (ofBoolBits true) = true := by
  refine ⟨?_, by decide, by decide, by decide, ?_, ?_, by decide, by decide⟩
  · intro v
    simp [valTruthy, isNullBits, NullVal]
  · intro i
    have h := ofIntBits_eq i
    simp [valTruthy, isNullBits, NullVal]
    omega
  · intro v hv
    simp [isObjectBits, TrueVal] at hv
    simp [valTruthy, isNullBits, NullVal]
    omega

/-- Witness for C10's conditional conjuncts: the object encoding 8 is
truthy, and the int encoding of 0 is truthy. -/
theorem c10_truthiness_witness :
    isObjectBits 8 = true ∧ valTruthy 8 = true ∧ valTruthy (ofIntBits 0) = true :=
  ⟨by decide, c10_truthiness.2.2.2.2.2.1 8 (by decide),
   c10_truthiness.2.2.2.2.1 0⟩

/-! ### Allocation failure protocol -/

/-- C4: `alloc(n)` obeys the failure protocol. When the bytes fit, it
returns the old cursor (a region of `n` contiguous bytes ending inside the
heap) and advances the cursor by exactly `n`, invoking no handler. When
they do not fit: with no handler it returns null; with a handler, the
handler is invoked on the heap and `n` — returning false yields null,
returning true retries the allocation from the handler's updated state. -/
theorem c4_alloc_failure_protocol (fuel : Nat) (h : AllocHeap)
    (f : AllocHandler) (n : Nat) :
    (h.curOff + n ≤ h.endOff →
       ∀ handler, rawAlloc fuel h handler n
         = (some h.curOff, { h with curOff := h.curOff + n })) ∧
    (h.endOff < h.curOff + n →
       rawAlloc fuel h none n = (none, h) ∧
       (∀ h', f h n = (false, h') →
          rawAlloc fuel h (some f) n = (none, h')) ∧
       (∀ h' fuel', f h n = (true, h') →
          rawAlloc (fuel' + 1) h (some f) n = rawAlloc fuel' h' (some f) n)) := by
  constructor
  · intro hfit handler
    rw [rawAlloc.eq_def]
    simp [hfit]
  · intro hnofit
    refine ⟨?_, ?_, ?_⟩
    · rw [rawAlloc.eq_def]
      simp [Nat.not_le.mpr hnofit]
    · intro h' hf
      rw [rawAlloc.eq_def]
      simp [Nat.not_le.mpr hnofit, hf]
    · intro h' fuel' hf
      conv_lhs => rw [rawAlloc.eq_def]
      simp [Nat.not_le.mpr hnofit, hf]

/-- Witness for C4 at a heap with cursor 8 and end 20: a fitting request of
5 bytes, and a non-fitting request of 100 bytes with a declining handler. -/
theorem c4_alloc_failure_protocol_witness :
    ((8 : Nat) + 5 ≤ 20 ∧
     rawAlloc 3 ⟨8, 20⟩ none 5 = (some 8, ⟨13, 20⟩)) ∧
    ((20 : Nat) < 8 + 100 ∧
     rawAlloc 3 ⟨8, 20⟩ (some fun h _ => (false, h)) 100 = (none, ⟨8, 20⟩)) :=
  ⟨⟨by norm_num,
    (c4_alloc_failure_protocol 3 ⟨8, 20⟩ (fun h _ => (false, h)) 5).1
      (by norm_num) none⟩,
   ⟨by norm_num,
    ((c4_alloc_failure_protocol 3 ⟨8, 20⟩ (fun h _ => (false, h)) 100).2
      (by norm_num)).2.1 ⟨8, 20⟩ rfl⟩⟩

/-! ### Adopting an existing heap -/

/-- C5: adopting `(base, used, capacity)` fails — and no heap is
constructed — iff the magic number is not `0xD217904A` or the root is an
object reference decoding outside `[sizeof(Header), used)`; otherwise the
adopted heap carries the given `used` (and capacity). -/
theorem c5_existing_validation (magic : Nat) (root : DVal) (used capacity : Nat) :
    ((∃ e, heapExisting magic root used capacity = .error e) ↔
       (magic ≠ kMagic ∨
        ∃ p t, root = .ref p t ∧ (p < headerSize ∨ p ≥ used))) ∧
    (∀ h, heapExisting magic root used capacity = .ok h →
       h.used = used ∧ h.capacity = capacity) := by
  unfold heapExisting
  constructor
  · by_cases hm : magic = kMagic
    · cases root with
      | prim b => simp [hm]
      | ref p t =>
          by_cases hr : p < headerSize ∨ p ≥ used
          · simp [hm, hr]
          · simp [hm, hr]
    · cases root with
      | prim b => simp [hm]
      | ref p t => simp [hm]
  · intro h
    by_cases hm : magic = kMagic
    · cases root with
      | prim b =>
          simp [hm]
          intro he
          simp [← he]
      | ref p t =>
          by_cases hr : p < headerSize ∨ p ≥ used
          · simp [hm, hr]
          · simp [hm, hr]
            intro he
            simp [← he]
    · simp [hm]

/-- Witness for C5: a well-formed header (right magic, in-range object
root) is adopted with the given `used`; wrong magic is rejected. -/
theorem c5_existing_validation_witness :
    (∀ h, heapExisting kMagic (.ref 8 .arr) 20 100 = .ok h →
       h.used = 20 ∧ h.capacity = 100) ∧
    ((∃ e, heapExisting 0 (.prim 0) 20 100 = .error e) ↔
       ((0 : Nat) ≠ kMagic ∨
        ∃ p t, (DVal.prim 0) = .ref p t ∧ (p < headerSize ∨ p ≥ 20))) :=
  ⟨(c5_existing_validation kMagic (.ref 8 .arr) 20 100).2,
   (c5_existing_validation 0 (.prim 0) 20 100).1⟩

/-! ### Vector append -/

/-- C7: `Vector::append` is bounded and maintains the slot-0 size
convention. If the size equals the capacity it returns false and leaves the
vector unchanged; if `s < capacity` it stores the value in slot `s+1`,
stores the new size `s+1` in slot 0, returns true, and touches no other
slot. -/
theorem c7_vector_append (v : SVector) (x s : Nat)
    (hs : v.slots.getD 0 0 = ofIntBits (s : Int))
    (hcap : s ≤ v.capacity)
    (hbound : v.capacity < 2 ^ 30)
    (hne : v.slots ≠ []) :
    (s = v.capacity → v.append x = (false, v)) ∧
    (s < v.capacity →
       (v.append x).1 = true ∧
       (v.append x).2.slots[0]? = some (ofIntBits ((s : Int) + 1)) ∧
       (v.append x).2.size = s + 1 ∧
       (v.append x).2.slots[s + 1]? = some x ∧
       (v.append x).2.slots.length = v.slots.length ∧
       (∀ j, j ≠ 0 → j ≠ s + 1 →
          (v.append x).2.slots[j]? = v.slots[j]?)) := by
  have hlen : 0 < v.slots.length := List.length_pos.mpr hne
  have hsize : v.size = s := by
    unfold SVector.size
    rw [hs, asIntBits_ofIntBits (s : Int) (by omega)
        (by push_cast; omega)]
    exact Int.toNat_natCast s
  constructor
  · intro heq
    unfold SVector.append
    rw [hsize]
    simp [heq]
  · intro hlt
    unfold SVector.append
    rw [hsize]
    rw [if_neg (by omega)]
    have hs1 : s + 1 < v.slots.length := by
      unfold SVector.capacity at hlt
      omega
    refine ⟨rfl, ?_, ?_, ?_, ?_, ?_⟩
    · show (((v.slots.set (s + 1) x).set 0 (ofIntBits ((s + 1 : Nat) : Int))))[0]? =
        some (ofIntBits ((s : Int) + 1))
      rw [List.getElem?_set_self (by simp; omega)]
      norm_num
    · show SVector.size ⟨(v.slots.set (s + 1) x).set 0 (ofIntBits ((s + 1 : Nat) : Int))⟩ = s + 1
      unfold SVector.size
      have h0 : ((v.slots.set (s + 1) x).set 0 (ofIntBits ((s + 1 : Nat) : Int))).getD 0 0 =
          ofIntBits ((s + 1 : Nat) : Int) := by
        rw [List.getD_eq_getElem?_getD, List.getElem?_set_self (by simp; omega)]
        rfl
      rw [h0, asIntBits_ofIntBits ((s + 1 : Nat) : Int) (by omega)
          (by push_cast; omega)]
      exact Int.toNat_natCast (s + 1)
    · show (((v.slots.set (s + 1) x).set 0 (ofIntBits ((s + 1 : Nat) : Int))))[s + 1]? =
        some x
      rw [List.getElem?_set_ne (by omega), List.getElem?_set_self (by simpa using hs1)]
    · simp [SVector.setSize]
    · intro j hj0 hjs
      show (((v.slots.set (s + 1) x).set 0 (ofIntBits ((s + 1 : Nat) : Int))))[j]? =
        v.slots[j]?
      rw [List.getElem?_set_ne (by omega), List.getElem?_set_ne (by omega)]

/-- Witness for C7: a vector of capacity 2 holding one element accepts an
append into slot 2 and updates its stored size to 2. -/
theorem c7_vector_append_witness :
    (SVector.slots ⟨[ofIntBits 1, 7, 0]⟩).getD 0 0 = ofIntBits ((1 : Nat) : Int) ∧
    (1 : Nat) < SVector.capacity ⟨[ofIntBits 1, 7, 0]⟩ ∧
    (SVector.append ⟨[ofIntBits 1, 7, 0]⟩ 9).1 = true ∧
    (SVector.append ⟨[ofIntBits 1, 7, 0]⟩ 9).2.slots[2]? = some 9 := by
  have h := c7_vector_append ⟨[ofIntBits 1, 7, 0]⟩ 9 1 (by norm_num)
      (by norm_num [SVector.capacity]) (by norm_num [SVector.capacity])
      (by simp)
  have h2 := h.2 (by norm_num [SVector.capacity])
  exact ⟨by norm_num, by norm_num [SVector.capacity], h2.1, h2.2.2.2.1⟩

/-! ### Dict -/

theorem dictInv_iff_pairwise (es : List DictEntry) :
    DictInv es ↔ List.Pairwise entryR es :=
  List.chain'_iff_pairwise

/-- Every entry before the `_findEntry` position has key block greater than
the probe key (the `lower_bound` predicate holds on the prefix). -/
theorem key_gt_of_mem_take_findEntry {es : List DictEntry} {k : Nat} :
    ∀ a ∈ es.take (findEntry es k), a.key > k := by
  induction es with
  | nil => simp
  | cons e tl ih =>
      intro a ha
      unfold findEntry at ha
      by_cases he : e.key > k
      · rw [if_pos he] at ha
        rw [List.take_succ_cons] at ha
        rcases List.mem_cons.mp ha with rfl | ha'
        · exact he
        · exact ih a ha'
      · rw [if_neg he] at ha
        simp at ha

/-- Under the Dict invariant, every entry at or after the `_findEntry`
position has key block at most the probe key. -/
theorem key_le_of_mem_drop_findEntry {es : List DictEntry} {k : Nat}
    (hinv : List.Pairwise entryR es) :
    ∀ a ∈ es.drop (findEntry es k), a.key ≤ k := by
  induction es with
  | nil => simp
  | cons e tl ih =>
      intro a ha
      unfold findEntry at ha
      by_cases he : e.key > k
      · rw [if_pos he] at ha
        rw [List.drop_succ_cons] at ha
        exact ih (List.Pairwise.of_cons hinv) a ha
      · rw [if_neg he] at ha
        rw [List.drop_zero] at ha
        rcases List.mem_cons.mp ha with rfl | ha'
        · omega
        · have hr := List.rel_of_pairwise_cons hinv ha'
          simp only [entryR] at hr
          omega

theorem findEntry_le_length (es : List DictEntry) (k : Nat) :
    findEntry es k ≤ es.length := by
  induction es with
  | nil => simp [findEntry]
  | cons e tl ih =>
      unfold findEntry
      by_cases he : e.key > k
      · rw [if_pos he]
        simpa using ih
      · rw [if_neg he]
        simp

/-- Under the invariant, `Dict::find` returns exactly the value stored
under a (non-null) key. -/
theorem dictFind_iff {es : List DictEntry} {k v : Nat}
    (hinv : List.Pairwise entryR es) (hk : k ≠ 0) :
    dictFind es k = some v ↔ (⟨k, v⟩ : DictEntry) ∈ es := by
  constructor
  · intro hf
    unfold dictFind at hf
    cases hg : es[findEntry es k]? with
    | none => rw [hg] at hf; exact absurd hf (by simp)
    | some e =>
        rw [hg] at hf
        have hf' : (if e.key = k then some e.value else none) = some v := hf
        by_cases he : e.key = k
        · rw [if_pos he] at hf'
          have hv : e.value = v := by simpa using hf'
          have : e = ⟨k, v⟩ := by
            cases e
            simp_all
          exact this ▸ List.getElem?_mem hg
        · rw [if_neg he] at hf'
          exact absurd hf' (by simp)
  · intro hm
    induction es with
    | nil => simp at hm
    | cons e tl ih =>
        unfold dictFind findEntry
        by_cases he : e.key > k
        · rw [if_pos he]
          have hm' : (⟨k, v⟩ : DictEntry) ∈ tl := by
            rcases List.mem_cons.mp hm with heq | h'
            · exfalso
              have hek : e.key = k := by rw [← heq]
              omega
            · exact h'
          have := ih (List.Pairwise.of_cons hinv) hm'
          unfold dictFind at this
          simpa using this
        · rw [if_neg he]
          simp only [List.getElem?_cons_zero]
          rcases List.mem_cons.mp hm with heq | h'
          · rw [← heq]
            simp
          · have hr := List.rel_of_pairwise_cons hinv h'
            simp only [entryR] at hr
            exfalso
            omega

/-- Replacing the value stored at a position whose key already equals `k`
keeps the invariant (the key sequence is unchanged). -/
theorem pairwise_set_same_key :
    ∀ {es : List DictEntry} {i : Nat} {e : DictEntry} {k v : Nat},
      List.Pairwise entryR es → es[i]? = some e → e.key = k →
      List.Pairwise entryR (es.set i ⟨k, v⟩)
  | [], i, e, k, v, _, hget, _ => by simp at hget
  | a :: tl, 0, e, k, v, hinv, hget, hek => by
      have ha : a = e := by simpa using hget
      rw [List.set_cons_zero]
      rw [List.pairwise_cons] at hinv ⊢
      refine ⟨fun b hb => ?_, hinv.2⟩
      have := hinv.1 b hb
      simp only [entryR] at this ⊢
      subst ha
      omega
  | a :: tl, i + 1, e, k, v, hinv, hget, hek => by
      rw [List.set_cons_succ]
      rw [List.pairwise_cons] at hinv ⊢
      have hget' : tl[i]? = some e := by simpa using hget
      refine ⟨fun b hb => ?_, pairwise_set_same_key hinv.2 hget' hek⟩
      rcases List.mem_or_eq_of_mem_set hb with hb' | rfl
      · exact hinv.1 b hb'
      · have := hinv.1 e (List.getElem?_mem hget')
        simp only [entryR] at this ⊢
        omega

/-- Inserting a fresh key at the `_findEntry` position, shifting the later
entries down and dropping the trailing entry, keeps the invariant. -/
theorem pairwise_insertAt_findEntry {es : List DictEntry} {k v : Nat}
    (hinv : List.Pairwise entryR es)
    {e : DictEntry} (hget : es[findEntry es k]? = some e) (hne : e.key ≠ k) :
    List.Pairwise entryR
      (es.take (findEntry es k) ++ ⟨k, v⟩ :: (es.drop (findEntry es k)).dropLast) := by
  have hlt : findEntry es k < es.length := (List.getElem?_eq_some_iff.mp hget).1
  have hdropkey : ∀ b ∈ es.drop (findEntry es k), b.key ≤ k ∧ b.key ≠ k := by
    intro b hb
    refine ⟨key_le_of_mem_drop_findEntry hinv b hb, ?_⟩
    have hcons : es.drop (findEntry es k) = e :: es.drop (findEntry es k + 1) := by
      rw [List.drop_eq_getElem_cons hlt]
      congr 1
      exact ((List.getElem?_eq_some_iff.mp hget).2).symm ▸ rfl
    have hpd : List.Pairwise entryR (es.drop (findEntry es k)) :=
      hinv.sublist (List.drop_sublist _ es)
    rw [hcons] at hb hpd
    rcases List.mem_cons.mp hb with rfl | hb'
    · exact hne
    · intro hbk
      have hr := List.rel_of_pairwise_cons hpd hb'
      have hek : e.key ≤ k :=
        key_le_of_mem_drop_findEntry hinv e (hcons ▸ List.mem_cons_self e _)
      simp only [entryR] at hr
      omega
  rw [List.pairwise_append]
  refine ⟨hinv.sublist (List.take_sublist _ es), ?_, ?_⟩
  · rw [List.pairwise_cons]
    constructor
    · intro b hb
      have hb' : b ∈ es.drop (findEntry es k) :=
        (List.dropLast_sublist _).subset hb
      have := hdropkey b hb'
      simp only [entryR]
      omega
    · exact hinv.sublist
        (((es.drop (findEntry es k)).dropLast_sublist).trans (List.drop_sublist _ es))
  · intro a ha b hb
    have hak : a.key > k := key_gt_of_mem_take_findEntry a ha
    rcases List.mem_cons.mp hb with rfl | hb'
    · simp only [entryR]
      omega
    · have hb'' : b ∈ es.drop (findEntry es k) :=
        (List.dropLast_sublist _).subset hb'
      have := hdropkey b hb''
      simp only [entryR]
      omega

/-- Removing the entry at the `_findEntry` position, shifting the later
entries up and appending a null sentinel, keeps the invariant. -/
theorem pairwise_removeAt_findEntry {es : List DictEntry} {i : Nat}
    (hinv : List.Pairwise entryR es) :
    List.Pairwise entryR (es.take i ++ es.drop (i + 1) ++ [(⟨0, 0⟩ : DictEntry)]) := by
  have hsub : List.Sublist (es.take i ++ es.drop (i + 1)) es := by
    have h1 : List.Sublist (es.drop (i + 1)) (es.drop i) :=
      List.drop_sublist_drop_left es (by omega)
    have h2 := h1.append_left (es.take i)
    rwa [List.take_append_drop] at h2
  rw [List.pairwise_append]
  refine ⟨hinv.sublist hsub, by simp, ?_⟩
  intro a ha b hb
  have hb0 : b = ⟨0, 0⟩ := by simpa using hb
  subst hb0
  show entryR a ⟨0, 0⟩
  simp only [entryR, and_true]
  omega

/-- `Dict::set` preserves the invariant in all four branches. -/
theorem dictSet_pairwise {es : List DictEntry} {k v : Nat} {io : Bool}
    (hinv : List.Pairwise entryR es) :
    List.Pairwise entryR (dictSet es k v io).2 := by
  unfold dictSet
  cases hg : es[findEntry es k]? with
  | none => simpa [hg] using hinv
  | some e =>
      simp only [hg]
      by_cases he : e.key = k
      · rw [if_pos he]
        cases io with
        | true => simpa using hinv
        | false => simpa using pairwise_set_same_key hinv hg he
      · rw [if_neg he]
        by_cases hlast : (es.getLast?.map DictEntry.key) = some 0
        · rw [if_pos hlast]
          simpa using pairwise_insertAt_findEntry hinv hg he
        · rw [if_neg hlast]
          simpa using hinv

/-- `Dict::remove` preserves the invariant in both branches. -/
theorem dictRemove_pairwise {es : List DictEntry} {k : Nat}
    (hinv : List.Pairwise entryR es) :
    List.Pairwise entryR (dictRemove es k).2 := by
  unfold dictRemove
  cases hg : es[findEntry es k]? with
  | none => simpa [hg] using hinv
  | some e =>
      simp only [hg]
      by_cases he : e.key = k
      · rw [if_pos he]
        simpa using pairwise_removeAt_findEntry (i := findEntry es k) hinv
      · rw [if_neg he]
        simpa using hinv

/-- A successful (non-insert-only) `Dict::set` leaves the entry in the
dict. -/
theorem dictSet_mem {es : List DictEntry} {k v : Nat}
    (htrue : (dictSet es k v false).1 = true) :
    (⟨k, v⟩ : DictEntry) ∈ (dictSet es k v false).2 := by
  unfold dictSet at htrue ⊢
  cases hg : es[findEntry es k]? with
  | none => simp [hg] at htrue
  | some e =>
      simp only [hg] at htrue ⊢
      by_cases he : e.key = k
      · rw [if_pos he] at htrue ⊢
        have hlt : findEntry es k < es.length := (List.getElem?_eq_some_iff.mp hg).1
        exact List.getElem?_mem (List.getElem?_set_self (by simpa using hlt))
      · rw [if_neg he] at htrue ⊢
        by_cases hlast : (es.getLast?.map DictEntry.key) = some 0
        · rw [if_pos hlast]
          simp
        · rw [if_neg hlast] at htrue
          simp at htrue

/-- C6: under the sorted-descending-keys-then-null-sentinels invariant,
`Dict::set` and `Dict::remove` preserve the invariant, `Dict::find` returns
a (non-null) key's value exactly when the entry is present, and a
successful `set` makes `find` return the new value. -/
theorem c6_dict_operations (es : List DictEntry) (k v : Nat) (io : Bool)
    (hinv : DictInv es) (hk : k ≠ 0) :
    DictInv (dictSet es k v io).2 ∧
    DictInv (dictRemove es k).2 ∧
    (dictFind es k = some v ↔ (⟨k, v⟩ : DictEntry) ∈ es) ∧
    ((dictSet es k v false).1 = true →
       dictFind (dictSet es k v false).2 k = some v) := by
  rw [dictInv_iff_pairwise] at hinv
  refine ⟨?_, ?_, dictFind_iff hinv hk, ?_⟩
  · rw [dictInv_iff_pairwise]
    exact dictSet_pairwise hinv
  · rw [dictInv_iff_pairwise]
    exact dictRemove_pairwise hinv
  · intro htrue
    exact (dictFind_iff (dictSet_pairwise hinv) hk).mpr (dictSet_mem htrue)

/-- Witness for C6 on a capacity-3 dict holding keys 30 and 10 plus one
null sentinel, probed with the fresh key 20. -/
theorem c6_dict_operations_witness :
    DictInv [⟨30, 1⟩, ⟨10, 2⟩, ⟨0, 0⟩] ∧ (20 : Nat) ≠ 0 ∧
    (DictInv (dictSet [⟨30, 1⟩, ⟨10, 2⟩, ⟨0, 0⟩] 20 99 false).2 ∧
     DictInv (dictRemove [⟨30, 1⟩, ⟨10, 2⟩, ⟨0, 0⟩] 20).2 ∧
     (dictFind [⟨30, 1⟩, ⟨10, 2⟩, ⟨0, 0⟩] 20 = some 99 ↔
        (⟨20, 99⟩ : DictEntry) ∈ [⟨30, 1⟩, ⟨10, 2⟩, ⟨0, 0⟩]) ∧
     ((dictSet [⟨30, 1⟩, ⟨10, 2⟩, ⟨0, 0⟩] 20 99 false).1 = true →
        dictFind (dictSet [⟨30, 1⟩, ⟨10, 2⟩, ⟨0, 0⟩] 20 99 false).2 20 = some 99)) :=
  ⟨by decide, by decide,
   c6_dict_operations [⟨30, 1⟩, ⟨10, 2⟩, ⟨0, 0⟩] 20 99 false (by decide) (by decide)⟩

/-! ### Garbage collector: state-evolution lemmas -/

theorem blockLe_refl (b : Block) : BlockLe b b := ⟨rfl, rfl, rfl, fun _ => rfl⟩

theorem blockLe_trans {a b c : Block} (h1 : BlockLe a b) (h2 : BlockLe b c) :
    BlockLe a c := by
  obtain ⟨ht1, hs1, hc1, hf1⟩ := h1
  obtain ⟨ht2, hs2, hc2, hf2⟩ := h2
  refine ⟨ht2.trans ht1, hs2.trans hs1, hc2.trans hc1, fun h0 => ?_⟩
  rw [hf2 (by rw [hf1 h0]; exact h0), hf1 h0]

theorem forall₂_entLe_refl (l : List (Nat × Block)) : List.Forall₂ entLe l l :=
  List.forall₂_same.mpr fun pb _ => ⟨rfl, blockLe_refl pb.2⟩

theorem forall₂_entLe_trans :
    ∀ {l1 l2 l3 : List (Nat × Block)},
      List.Forall₂ entLe l1 l2 → List.Forall₂ entLe l2 l3 →
      List.Forall₂ entLe l1 l3
  | _, _, _, .nil, .nil => .nil
  | _, _, _, .cons h1 t1, .cons h2 t2 =>
      .cons ⟨h1.1.trans h2.1, blockLe_trans h1.2 h2.2⟩ (forall₂_entLe_trans t1 t2)

theorem stLe_refl (st : GCState) : StLe st st :=
  ⟨forall₂_entLe_refl _, Nat.le_refl _⟩

theorem stLe_trans {s t u : GCState} (h1 : StLe s t) (h2 : StLe t u) : StLe s u :=
  ⟨forall₂_entLe_trans h1.1 h2.1, h1.2.trans h2.2⟩

theorem forall₂_setFwd {l : List (Nat × Block)} {p q : Nat} {b : Block}
    (hb : lookupB l p = some b) (h0 : b.fwd = 0) :
    List.Forall₂ entLe l (setFwd l p q) := by
  induction l with
  | nil => simp [lookupB] at hb
  | cons pb l ih =>
      unfold lookupB at hb
      unfold setFwd
      by_cases hp : pb.1 = p
      · rw [if_pos hp] at hb ⊢
        have hbeq : pb.2 = b := by simpa using hb
        exact .cons ⟨rfl, rfl, rfl, rfl, fun h => absurd (hbeq ▸ h0) h⟩
          (forall₂_entLe_refl l)
      · rw [if_neg hp] at hb ⊢
        exact .cons ⟨rfl, blockLe_refl _⟩ (ih hb)

/-- The state after allocating the copy and writing the forwarding slot
(common to the String and Array cases of `scanValue`). -/
theorem stLe_alloc_setFwd {st : GCState} {p : Nat} {b nb : Block}
    (hb : lookupB st.fromBlocks p = some b) (h0 : b.fwd = 0) {q : Nat} :
    StLe st
      { fromBlocks := setFwd st.fromBlocks p q,
        toBlocks := st.toBlocks ++ [(st.toUsed, nb)],
        toUsed := st.toUsed + nb.size } :=
  ⟨forall₂_setFwd hb h0, Nat.le_add_right _ _⟩

theorem scanListWith_stle {f : GCState → DVal → Except GCErr (DVal × GCState)}
    (hf : ∀ st v w st', f st v = .ok (w, st') → StLe st st') :
    ∀ {l : List DVal} {st ws st'},
      scanListWith f st l = .ok (ws, st') → StLe st st'
  | [], st, ws, st', h => by
      unfold scanListWith at h
      cases h
      exact stLe_refl st
  | v :: vs, st, ws, st', h => by
      unfold scanListWith at h
      cases hv : f st v with
      | error e => rw [hv] at h; cases h
      | ok r =>
          rw [hv] at h
          obtain ⟨w, st₁⟩ := r
          dsimp only at h
          cases hrec : scanListWith f st₁ vs with
          | error e => rw [hrec] at h; cases h
          | ok r₂ =>
              rw [hrec] at h
              obtain ⟨ws₂, st₂⟩ := r₂
              cases h
              exact stLe_trans (hf st v w st₁ hv) (scanListWith_stle hf hrec)

/-! Step equations for `scanValue`, one per branch of the C++ `switch`. -/

theorem scanValue_prim (fuel : Nat) (st : GCState) (b : Nat) :
    scanValue (fuel + 1) st (.prim b) = .ok (.prim b, st) := rfl

theorem scanValue_dict (fuel : Nat) (st : GCState) (p : Nat) :
    scanValue (fuel + 1) st (.ref p .dict) = .error .dictAbort := rfl

theorem scanValue_other {t : DTag} (ht : t ≠ .str ∧ t ≠ .arr ∧ t ≠ .dict)
    (fuel : Nat) (st : GCState) (p : Nat) :
    scanValue (fuel + 1) st (.ref p t) = .ok (.ref p t, st) := by
  cases t <;> first | rfl | simp_all

theorem scanValue_str_none {st : GCState} {p : Nat}
    (hb : lookupB st.fromBlocks p = none) (fuel : Nat) :
    scanValue (fuel + 1) st (.ref p .str) = .error .badHeap := by
  unfold scanValue
  dsimp only
  rw [hb]

theorem scanValue_str_fwd {st : GCState} {p : Nat} {blk : Block}
    (hb : lookupB st.fromBlocks p = some blk) (hf : blk.fwd ≠ 0) (fuel : Nat) :
    scanValue (fuel + 1) st (.ref p .str) = .ok (.ref blk.fwd .str, st) := by
  unfold scanValue
  dsimp only
  rw [hb]
  simp [hf]

theorem scanValue_str_copy {st : GCState} {p : Nat} {blk : Block}
    (hb : lookupB st.fromBlocks p = some blk) (hf : blk.fwd = 0) (fuel : Nat) :
    scanValue (fuel + 1) st (.ref p .str) =
      .ok (.ref st.toUsed .str,
        { fromBlocks := setFwd st.fromBlocks p st.toUsed,
          toBlocks := st.toBlocks ++
            [(st.toUsed,
              { tag := .str, fwd := 0, size := blk.size, content := blk.content })],
          toUsed := st.toUsed + blk.size }) := by
  unfold scanValue
  dsimp only
  rw [hb]
  simp [hf, allocTo]

theorem scanValue_arr_none {st : GCState} {p : Nat}
    (hb : lookupB st.fromBlocks p = none) (fuel : Nat) :
    scanValue (fuel + 1) st (.ref p .arr) = .error .badHeap := by
  unfold scanValue
  dsimp only
  rw [hb]

theorem scanValue_arr_fwd {st : GCState} {p : Nat} {blk : Block}
    (hb : lookupB st.fromBlocks p = some blk) (hf : blk.fwd ≠ 0) (fuel : Nat) :
    scanValue (fuel + 1) st (.ref p .arr) = .ok (.ref blk.fwd .arr, st) := by
  unfold scanValue
  dsimp only
  rw [hb]
  simp [hf]

theorem scanValue_arr_badcontent {st : GCState} {p : Nat} {blk : Block}
    (hb : lookupB st.fromBlocks p = some blk) (hf : blk.fwd = 0)
    (hc : ∀ vs, blk.content ≠ .vals vs) (fuel : Nat) :
    scanValue (fuel + 1) st (.ref p .arr) = .error .badHeap := by
  unfold scanValue
  dsimp only
  rw [hb]
  dsimp only
  cases hcb : blk.content with
  | vals vs => exact absurd hcb (hc vs)
  | bytes bs => simp [hf]
  | dictEntries ds => simp [hf]

theorem scanValue_arr_copy {st : GCState} {p : Nat} {blk : Block} {elems : List DVal}
    (hb : lookupB st.fromBlocks p = some blk) (hf : blk.fwd = 0)
    (hc : blk.content = .vals elems) (fuel : Nat) :
    scanValue (fuel + 1) st (.ref p .arr) =
      match scanListWith (scanValue fuel) (arrCopyState st p blk elems) elems with
      | .error e => .error e
      | .ok (ws, st₃) =>
          .ok (.ref st.toUsed .arr,
               { st₃ with toBlocks := setToContent st₃.toBlocks st.toUsed (.vals ws) }) := by
  unfold scanValue
  dsimp only
  rw [hb]
  simp only [hf]
  rw [if_neg (by simp)]
  rw [hc]
  simp [allocTo, arrCopyState]

/-- Any successful scan only writes forwarding slots in the from-heap and
grows the to-heap (`StLe`). -/
theorem scanValue_stle :
    ∀ (fuel : Nat) (st : GCState) (v : DVal) (w : DVal) (st' : GCState),
      scanValue fuel st v = .ok (w, st') → StLe st st' := by
  intro fuel
  induction fuel with
  | zero =>
      intro st v w st' h
      exact absurd h (by simp [scanValue])
  | succ fuel ih =>
      intro st v w st' h
      match v with
      | .prim b =>
          rw [scanValue_prim] at h
          cases h
          exact stLe_refl _
      | .ref p t =>
          cases t with
          | dict => rw [scanValue_dict] at h; cases h
          | str =>
              cases hb : lookupB st.fromBlocks p with
              | none => rw [scanValue_str_none hb] at h; cases h
              | some blk =>
                  by_cases hf : blk.fwd = 0
                  · rw [scanValue_str_copy hb hf] at h
                    cases h
                    exact stLe_alloc_setFwd hb hf
                  · rw [scanValue_str_fwd hb hf] at h
                    cases h
                    exact stLe_refl _
          | arr =>
              cases hb : lookupB st.fromBlocks p with
              | none => rw [scanValue_arr_none hb] at h; cases h
              | some blk =>
                  by_cases hf : blk.fwd = 0
                  · cases hc : blk.content with
                    | vals elems =>
                        rw [scanValue_arr_copy hb hf hc] at h
                        cases hrec :
                            scanListWith (scanValue fuel)
                              (arrCopyState st p blk elems) elems with
                        | error e => rw [hrec] at h; cases h
                        | ok r =>
                            rw [hrec] at h
                            obtain ⟨ws, st₃⟩ := r
                            cases h
                            refine stLe_trans (stLe_alloc_setFwd hb hf)
                              (stLe_trans (scanListWith_stle ih hrec) ?_)
                            exact ⟨forall₂_entLe_refl _, Nat.le_refl _⟩
                    | bytes bs =>
                        rw [scanValue_arr_badcontent hb hf (by simp [hc])] at h
                        cases h
                    | dictEntries es =>
                        rw [scanValue_arr_badcontent hb hf (by simp [hc])] at h
                        cases h
                  · rw [scanValue_arr_fwd hb hf] at h
                    cases h
                    exact stLe_refl _
          | flt =>
              rw [scanValue_other (by simp)] at h
              cases h
              exact stLe_refl _
          | bigint =>
              rw [scanValue_other (by simp)] at h
              cases h
              exact stLe_refl _
          | sym =>
              rw [scanValue_other (by simp)] at h
              cases h
              exact stLe_refl _
          | blob =>
              rw [scanValue_other (by simp)] at h
              cases h
              exact stLe_refl _
          | vec =>
              rw [scanValue_other (by simp)] at h
              cases h
              exact stLe_refl _

/-! ### Garbage collector: the termination measure -/

/-- Writing a nonzero forwarding slot into a not-yet-forwarded block
decreases the number of unforwarded blocks by exactly one. -/
theorem unfwdCount_setFwd {l : List (Nat × Block)} {p q : Nat} {b : Block}
    (hb : lookupB l p = some b) (h0 : b.fwd = 0) (hq : q ≠ 0) :
    unfwdCount (setFwd l p q) + 1 = unfwdCount l := by
  induction l with
  | nil => simp [lookupB] at hb
  | cons pb l ih =>
      unfold lookupB at hb
      unfold setFwd
      by_cases hp : pb.1 = p
      · rw [if_pos hp] at hb ⊢
        have hbeq : pb.2 = b := by simpa using hb
        unfold unfwdCount
        rw [List.filter_cons, List.filter_cons]
        have hb0 : (pb.2.fwd == 0) = true := by simp [hbeq, h0]
        simp only [hb0]
        have hq0 : (({ pb.2 with fwd := q } : Block).fwd == 0) = false := by
          simpa using hq
        simp [hq0]
      · rw [if_neg hp] at hb ⊢
        have ih' := ih hb
        unfold unfwdCount at ih' ⊢
        rw [List.filter_cons, List.filter_cons]
        cases hpb : (pb.2.fwd == 0) <;> simp [hpb] <;> omega

theorem forall₂_unfwdCount_le :
    ∀ {l l' : List (Nat × Block)}, List.Forall₂ entLe l l' →
      unfwdCount l' ≤ unfwdCount l
  | [], [], .nil => Nat.le_refl _
  | pb :: l, pb' :: l', .cons hpb t => by
      have ih := forall₂_unfwdCount_le t
      unfold unfwdCount at ih ⊢
      rw [List.filter_cons, List.filter_cons]
      by_cases h0 : pb.2.fwd = 0
      · cases hpb' : (pb'.2.fwd == 0) <;> simp [h0, hpb'] <;> omega
      · have : pb'.2.fwd = pb.2.fwd := hpb.2.2.2.2 h0
        have h0' : (pb'.2.fwd == 0) = false := by simp [this, h0]
        have h0'' : (pb.2.fwd == 0) = false := by simp [h0]
        simp [h0', h0'']
        omega

theorem stLe_unfwd {st st' : GCState} (h : StLe st st') :
    unfwdCount st'.fromBlocks ≤ unfwdCount st.fromBlocks :=
  forall₂_unfwdCount_le h.1

/-- Fuel-stability of the child-scanning loop, given fuel-stability of the
scanner at fuel `n`. -/
theorem scanListWith_stable (n : Nat)
    (hstab : ∀ st v, 0 < st.toUsed → unfwdCount st.fromBlocks < n →
        scanValue n st v ≠ .error .fuelOut ∧
        (∀ m, unfwdCount st.fromBlocks < m → scanValue m st v = scanValue n st v)) :
    ∀ (l : List DVal) (st : GCState), 0 < st.toUsed →
      unfwdCount st.fromBlocks < n →
      scanListWith (scanValue n) st l ≠ .error .fuelOut ∧
      (∀ m, unfwdCount st.fromBlocks < m →
         scanListWith (scanValue m) st l = scanListWith (scanValue n) st l) := by
  intro l
  induction l with
  | nil =>
      intro st hpos hfuel
      exact ⟨by simp [scanListWith], fun m hm => rfl⟩
  | cons v vs ih =>
      intro st hpos hfuel
      have hv := hstab st v hpos hfuel
      cases hsv : scanValue n st v with
      | error e =>
          have hne : e ≠ .fuelOut := by
            intro he
            exact hv.1 (he ▸ hsv)
          constructor
          · unfold scanListWith
            rw [hsv]
            exact fun hc => hne (by cases hc; rfl)
          · intro m hm
            unfold scanListWith
            rw [hv.2 m hm, hsv]
      | ok r =>
          obtain ⟨w, st₁⟩ := r
          have hstle := scanValue_stle n st v w st₁ hsv
          have hpos₁ : 0 < st₁.toUsed := Nat.lt_of_lt_of_le hpos hstle.2
          have hfuel₁ : unfwdCount st₁.fromBlocks < n :=
            Nat.lt_of_le_of_lt (stLe_unfwd hstle) hfuel
          have htail := ih st₁ hpos₁ hfuel₁
          constructor
          · unfold scanListWith
            rw [hsv]
            dsimp only
            cases hrec : scanListWith (scanValue n) st₁ vs with
            | error e =>
                have hne : e ≠ .fuelOut := by
                  intro he
                  exact htail.1 (he ▸ hrec)
                exact fun hc => hne (by cases hc; rfl)
            | ok r₂ =>
                obtain ⟨ws, st₂⟩ := r₂
                simp
          · intro m hm
            have hm₁ : unfwdCount st₁.fromBlocks < m :=
              Nat.lt_of_le_of_lt (stLe_unfwd hstle) hm
            unfold scanListWith
            rw [hv.2 m hm, hsv]
            dsimp only
            rw [htail.2 m hm₁]

/-- With fuel exceeding the number of unforwarded from-blocks, a scan
never exhausts the fuel, and its result does not depend on the fuel:
`scanValue` computes a well-defined outcome in finitely many steps. The
`0 < st.toUsed` hypothesis says the to-heap contains at least its header,
so forwarding positions are never 0. -/
theorem scanValue_stable :
    ∀ (fuel : Nat) (st : GCState) (v : DVal),
      0 < st.toUsed → unfwdCount st.fromBlocks < fuel →
      scanValue fuel st v ≠ .error .fuelOut ∧
      (∀ fuel₂, unfwdCount st.fromBlocks < fuel₂ →
         scanValue fuel₂ st v = scanValue fuel st v) := by
  intro fuel
  induction fuel using Nat.strong_induction_on with
  | _ fuel IH =>
  intro st v hpos hfuel
  match fuel, hfuel with
  | n + 1, hfuel =>
  have hsplit : ∀ fuel₂, unfwdCount st.fromBlocks < fuel₂ → ∃ m, fuel₂ = m + 1 :=
    fun fuel₂ h₂ => ⟨fuel₂ - 1, by omega⟩
  match v with
  | .prim b =>
      refine ⟨by rw [scanValue_prim]; simp, fun fuel₂ h₂ => ?_⟩
      obtain ⟨m, rfl⟩ := hsplit fuel₂ h₂
      rw [scanValue_prim, scanValue_prim]
  | .ref p t =>
      cases t with
      | dict =>
          refine ⟨by rw [scanValue_dict]; simp, fun fuel₂ h₂ => ?_⟩
          obtain ⟨m, rfl⟩ := hsplit fuel₂ h₂
          rw [scanValue_dict, scanValue_dict]
      | str =>
          cases hb : lookupB st.fromBlocks p with
          | none =>
              refine ⟨by rw [scanValue_str_none hb]; simp, fun fuel₂ h₂ => ?_⟩
              obtain ⟨m, rfl⟩ := hsplit fuel₂ h₂
              rw [scanValue_str_none hb, scanValue_str_none hb]
          | some blk =>
              by_cases hf : blk.fwd = 0
              · refine ⟨by rw [scanValue_str_copy hb hf]; simp, fun fuel₂ h₂ => ?_⟩
                obtain ⟨m, rfl⟩ := hsplit fuel₂ h₂
                rw [scanValue_str_copy hb hf, scanValue_str_copy hb hf]
              · refine ⟨by rw [scanValue_str_fwd hb hf]; simp, fun fuel₂ h₂ => ?_⟩
                obtain ⟨m, rfl⟩ := hsplit fuel₂ h₂
                rw [scanValue_str_fwd hb hf, scanValue_str_fwd hb hf]
      | arr =>
          cases hb : lookupB st.fromBlocks p with
          | none =>
              refine ⟨by rw [scanValue_arr_none hb]; simp, fun fuel₂ h₂ => ?_⟩
              obtain ⟨m, rfl⟩ := hsplit fuel₂ h₂
              rw [scanValue_arr_none hb, scanValue_arr_none hb]
          | some blk =>
              by_cases hf : blk.fwd = 0
              · cases hc : blk.content with
                | vals elems =>
                    have hq : st.toUsed ≠ 0 := by omega
                    have hdec :
                        unfwdCount (arrCopyState st p blk elems).fromBlocks + 1 =
                          unfwdCount st.fromBlocks :=
                      unfwdCount_setFwd hb hf hq
                    have hpos₂ : 0 < (arrCopyState st p blk elems).toUsed := by
                      unfold arrCopyState
                      dsimp
                      omega
                    have hfuel₂ :
                        unfwdCount (arrCopyState st p blk elems).fromBlocks < n := by
                      omega
                    have hlist := scanListWith_stable n (IH n (by omega))
                      elems (arrCopyState st p blk elems) hpos₂ hfuel₂
                    constructor
                    · rw [scanValue_arr_copy hb hf hc]
                      cases hrec :
                          scanListWith (scanValue n)
                            (arrCopyState st p blk elems) elems with
                      | error e =>
                          have := hlist.1
                          rw [hrec] at this
                          simp only [hrec]
                          intro hcontra
                          apply this
                          cases hcontra
                          rfl
                      | ok r =>
                          obtain ⟨ws, st₃⟩ := r
                          simp [hrec]
                    · intro fuel₂ h₂
                      obtain ⟨m, rfl⟩ := hsplit fuel₂ h₂
                      rw [scanValue_arr_copy hb hf hc, scanValue_arr_copy hb hf hc]
                      rw [hlist.2 m (by omega)]
                | bytes bs =>
                    constructor
                    · rw [scanValue_arr_badcontent hb hf (by simp [hc])]
                      simp
                    · intro fuel₂ h₂
                      obtain ⟨m, rfl⟩ := hsplit fuel₂ h₂
                      rw [scanValue_arr_badcontent hb hf (by simp [hc]),
                          scanValue_arr_badcontent hb hf (by simp [hc])]
                | dictEntries des =>
                    constructor
                    · rw [scanValue_arr_badcontent hb hf (by simp [hc])]
                      simp
                    · intro fuel₂ h₂
                      obtain ⟨m, rfl⟩ := hsplit fuel₂ h₂
                      rw [scanValue_arr_badcontent hb hf (by simp [hc]),
                          scanValue_arr_badcontent hb hf (by simp [hc])]
              · refine ⟨by rw [scanValue_arr_fwd hb hf]; simp, fun fuel₂ h₂ => ?_⟩
                obtain ⟨m, rfl⟩ := hsplit fuel₂ h₂
                rw [scanValue_arr_fwd hb hf, scanValue_arr_fwd hb hf]
      | flt =>
          refine ⟨by rw [scanValue_other (by simp)]; simp, fun fuel₂ h₂ => ?_⟩
          obtain ⟨m, rfl⟩ := hsplit fuel₂ h₂
          rw [scanValue_other (by simp), scanValue_other (by simp)]
      | bigint =>
          refine ⟨by rw [scanValue_other (by simp)]; simp, fun fuel₂ h₂ => ?_⟩
          obtain ⟨m, rfl⟩ := hsplit fuel₂ h₂
          rw [scanValue_other (by simp), scanValue_other (by simp)]
      | sym =>
          refine ⟨by rw [scanValue_other (by simp)]; simp, fun fuel₂ h₂ => ?_⟩
          obtain ⟨m, rfl⟩ := hsplit fuel₂ h₂
          rw [scanValue_other (by simp), scanValue_other (by simp)]
      | blob =>
          refine ⟨by rw [scanValue_other (by simp)]; simp, fun fuel₂ h₂ => ?_⟩
          obtain ⟨m, rfl⟩ := hsplit fuel₂ h₂
          rw [scanValue_other (by simp), scanValue_other (by simp)]
      | vec =>
          refine ⟨by rw [scanValue_other (by simp)]; simp, fun fuel₂ h₂ => ?_⟩
          obtain ⟨m, rfl⟩ := hsplit fuel₂ h₂
          rw [scanValue_other (by simp), scanValue_other (by simp)]

/-- C9: garbage collection terminates on every well-formed heap, shared
references and cycles included. With any fuel exceeding the number of
unforwarded from-blocks, `scanValue` neither loops nor exhausts the fuel
(its outcome is independent of the fuel), because a block's forwarding
slot is written before its children are scanned; and a revisit of an
already-forwarded String/Array block returns immediately with the
forwarding position, leaving the state untouched. -/
theorem c9_gc_termination (st : GCState) (v : DVal) (fuel : Nat)
    (hpos : 0 < st.toUsed) (hfuel : unforwarded st < fuel) :
    scanValue fuel st v ≠ .error .fuelOut ∧
    scanValue fuel st v = scanValue (unforwarded st + 1) st v ∧
    (∀ p t blk, lookupB st.fromBlocks p = some blk → blk.fwd ≠ 0 →
       (t = .str ∨ t = .arr) →
       scanValue fuel st (.ref p t) = .ok (.ref blk.fwd t, st)) := by
  have h := scanValue_stable fuel st v hpos hfuel
  refine ⟨h.1, ?_, ?_⟩
  · have h2 := scanValue_stable (unforwarded st + 1) st v hpos (Nat.lt_succ_self _)
    exact h2.2 fuel hfuel
  · intro p t blk hb hf ht
    obtain ⟨m, rfl⟩ : ∃ m, fuel = m + 1 := ⟨fuel - 1, by omega⟩
    rcases ht with rfl | rfl
    · exact scanValue_str_fwd hb hf m
    · exact scanValue_arr_fwd hb hf m

/-- Witness for C9 on a cyclic one-block heap (an Array whose single slot
references itself): the scan terminates without exhausting fuel 5. -/
theorem c9_gc_termination_witness :
    (0 < (⟨[(8, ⟨.arr, 0, 12, .vals [.ref 8 .arr]⟩)], [], 8⟩ : GCState).toUsed ∧
     unforwarded ⟨[(8, ⟨.arr, 0, 12, .vals [.ref 8 .arr]⟩)], [], 8⟩ < 5) ∧
    scanValue 5 ⟨[(8, ⟨.arr, 0, 12, .vals [.ref 8 .arr]⟩)], [], 8⟩ (.ref 8 .arr)
      ≠ .error .fuelOut ∧
    scanValue 5 ⟨[(8, ⟨.arr, 0, 12, .vals [.ref 8 .arr]⟩)], [], 8⟩ (.ref 8 .arr)
      = scanValue
          (unforwarded ⟨[(8, ⟨.arr, 0, 12, .vals [.ref 8 .arr]⟩)], [], 8⟩ + 1)
          ⟨[(8, ⟨.arr, 0, 12, .vals [.ref 8 .arr]⟩)], [], 8⟩ (.ref 8 .arr) :=
  ⟨⟨by decide, by decide⟩,
   (c9_gc_termination ⟨[(8, ⟨.arr, 0, 12, .vals [.ref 8 .arr]⟩)], [], 8⟩
      (.ref 8 .arr) 5 (by decide) (by decide)).1,
   (c9_gc_termination ⟨[(8, ⟨.arr, 0, 12, .vals [.ref 8 .arr]⟩)], [], 8⟩
      (.ref 8 .arr) 5 (by decide) (by decide)).2.1⟩

/-! ### Garbage collector: byte accounting (C3) -/

theorem fwdSizesSum_setFwd {l : List (Nat × Block)} {p q : Nat} {b : Block}
    (hb : lookupB l p = some b) (h0 : b.fwd = 0) (hq : q ≠ 0) :
    fwdSizesSum (setFwd l p q) = fwdSizesSum l + b.size := by
  induction l with
  | nil => simp [lookupB] at hb
  | cons pb l ih =>
      unfold lookupB at hb
      unfold setFwd
      by_cases hp : pb.1 = p
      · rw [if_pos hp] at hb ⊢
        have hbeq : pb.2 = b := by simpa using hb
        unfold fwdSizesSum
        rw [List.filter_cons, List.filter_cons]
        have hb0 : (pb.2.fwd != 0) = false := by simp [hbeq, h0]
        have hq0 : (({ pb.2 with fwd := q } : Block).fwd != 0) = true := by
          simpa using hq
        rw [hb0, hq0]
        simp [hbeq]
        omega
      · rw [if_neg hp] at hb ⊢
        have ih' := ih hb
        unfold fwdSizesSum at ih' ⊢
        rw [List.filter_cons, List.filter_cons]
        cases hpb : (pb.2.fwd != 0) <;> simp [hpb] <;> omega

theorem forall₂_sizesSum_eq :
    ∀ {l l' : List (Nat × Block)}, List.Forall₂ entLe l l' →
      sizesSum l' = sizesSum l
  | [], [], .nil => rfl
  | pb :: l, pb' :: l', .cons hpb t => by
      have ih := forall₂_sizesSum_eq t
      unfold sizesSum at ih ⊢
      simp only [List.map_cons, List.sum_cons]
      rw [hpb.2.2.1, ih]

theorem fwdSizesSum_le_sizesSum (l : List (Nat × Block)) :
    fwdSizesSum l ≤ sizesSum l := by
  induction l with
  | nil => simp [fwdSizesSum, sizesSum]
  | cons pb l ih =>
      unfold fwdSizesSum sizesSum at ih ⊢
      rw [List.filter_cons]
      cases hpb : (pb.2.fwd != 0) <;> simp <;> omega

theorem fwdSizesSum_of_quiet {l : List (Nat × Block)}
    (h : ∀ pb ∈ l, pb.2.fwd = 0) : fwdSizesSum l = 0 := by
  induction l with
  | nil => rfl
  | cons pb l ih =>
      unfold fwdSizesSum at ih ⊢
      rw [List.filter_cons]
      have h0 : (pb.2.fwd != 0) = false := by simp [h pb (by simp)]
      rw [h0]
      exact ih fun pb' hm => h pb' (by simp [hm])

/-- The accounting invariant: the to-heap bump cursor equals the header
plus the total size of the blocks already copied (one per forwarded
from-block) — preserved by the child-scanning loop. -/
theorem scanListWith_acc {f : GCState → DVal → Except GCErr (DVal × GCState)}
    (hf : ∀ st v w st', f st v = .ok (w, st') →
        st.toUsed = headerSize + fwdSizesSum st.fromBlocks →
        st'.toUsed = headerSize + fwdSizesSum st'.fromBlocks) :
    ∀ {l : List DVal} {st ws st'},
      scanListWith f st l = .ok (ws, st') →
      st.toUsed = headerSize + fwdSizesSum st.fromBlocks →
      st'.toUsed = headerSize + fwdSizesSum st'.fromBlocks
  | [], st, ws, st', h, hacc => by
      unfold scanListWith at h
      cases h
      exact hacc
  | v :: vs, st, ws, st', h, hacc => by
      unfold scanListWith at h
      cases hv : f st v with
      | error e => rw [hv] at h; cases h
      | ok r =>
          rw [hv] at h
          obtain ⟨w, st₁⟩ := r
          dsimp only at h
          cases hrec : scanListWith f st₁ vs with
          | error e => rw [hrec] at h; cases h
          | ok r₂ =>
              rw [hrec] at h
              obtain ⟨ws₂, st₂⟩ := r₂
              cases h
              exact scanListWith_acc hf hrec (hf st v w st₁ hv hacc)

/-- The accounting invariant is preserved by every successful scan. -/
theorem scanValue_acc :
    ∀ (fuel : Nat) (st : GCState) (v w : DVal) (st' : GCState),
      scanValue fuel st v = .ok (w, st') →
      st.toUsed = headerSize + fwdSizesSum st.fromBlocks →
      st'.toUsed = headerSize + fwdSizesSum st'.fromBlocks := by
  intro fuel
  induction fuel with
  | zero =>
      intro st v w st' h hacc
      exact absurd h (by simp [scanValue])
  | succ fuel ih =>
      intro st v w st' h hacc
      have hq : st.toUsed ≠ 0 := by unfold headerSize at hacc; omega
      match v with
      | .prim b =>
          rw [scanValue_prim] at h
          cases h
          exact hacc
      | .ref p t =>
          cases t with
          | dict => rw [scanValue_dict] at h; cases h
          | str =>
              cases hb : lookupB st.fromBlocks p with
              | none => rw [scanValue_str_none hb] at h; cases h
              | some blk =>
                  by_cases hf : blk.fwd = 0
                  · rw [scanValue_str_copy hb hf] at h
                    cases h
                    dsimp only
                    rw [fwdSizesSum_setFwd hb hf hq, hacc]
                    omega
                  · rw [scanValue_str_fwd hb hf] at h
                    cases h
                    exact hacc
          | arr =>
              cases hb : lookupB st.fromBlocks p with
              | none => rw [scanValue_arr_none hb] at h; cases h
              | some blk =>
                  by_cases hf : blk.fwd = 0
                  · cases hc : blk.content with
                    | vals elems =>
                        rw [scanValue_arr_copy hb hf hc] at h
                        have hacc₂ :
                            (arrCopyState st p blk elems).toUsed =
                              headerSize +
                                fwdSizesSum (arrCopyState st p blk elems).fromBlocks := by
                          unfold arrCopyState
                          dsimp only
                          rw [fwdSizesSum_setFwd hb hf hq, hacc]
                          omega
                        cases hrec :
                            scanListWith (scanValue fuel)
                              (arrCopyState st p blk elems) elems with
                        | error e => rw [hrec] at h; cases h
                        | ok r =>
                            rw [hrec] at h
                            obtain ⟨ws, st₃⟩ := r
                            cases h
                            dsimp only
                            exact scanListWith_acc ih hrec hacc₂
                    | bytes bs =>
                        rw [scanValue_arr_badcontent hb hf (by simp [hc])] at h
                        cases h
                    | dictEntries des =>
                        rw [scanValue_arr_badcontent hb hf (by simp [hc])] at h
                        cases h
                  · rw [scanValue_arr_fwd hb hf] at h
                    cases h
                    exact hacc
          | flt =>
              rw [scanValue_other (by simp)] at h
              cases h
              exact hacc
          | bigint =>
              rw [scanValue_other (by simp)] at h
              cases h
              exact hacc
          | sym =>
              rw [scanValue_other (by simp)] at h
              cases h
              exact hacc
          | blob =>
              rw [scanValue_other (by simp)] at h
              cases h
              exact hacc
          | vec =>
              rw [scanValue_other (by simp)] at h
              cases h
              exact hacc

/-- C3: when a GC into a caller-supplied destination heap completes, the
destination argument ends up reset (cursor back at `sizeof(Header)`,
forwarding discarded, null root) and the client's heap holds exactly the
relocated live objects the scan produced — with `used` no larger than its
pre-GC value. The hypotheses say the pre-GC heap is quiescent (all
forwarding slots zero, spec invariant 5) and that its blocks account for
its `used` bytes. -/
theorem c3_gc_swap_and_used (fromH dstH : DHeap) (fuel : Nat)
    (hquiet : ∀ pb ∈ fromH.blocks, pb.2.fwd = 0)
    (hused : fromH.used = headerSize + sizesSum fromH.blocks)
    (h' d' : DHeap)
    (hok : garbageCollectTo fromH dstH fuel = .ok (h', d')) :
    h'.used ≤ fromH.used ∧
    d' = { dstH with blocks := [], used := headerSize, root := .prim NullVal } ∧
    (∃ st', scanValue fuel ⟨fromH.blocks, [], headerSize⟩ fromH.root
        = .ok (h'.root, st') ∧
      h'.blocks = st'.toBlocks ∧ h'.used = st'.toUsed) := by
  unfold garbageCollectTo at hok
  dsimp only at hok
  cases hscan : scanValue fuel ⟨fromH.blocks, [], headerSize⟩ fromH.root with
  | error e => rw [hscan] at hok; cases hok
  | ok r =>
      rw [hscan] at hok
      obtain ⟨w, st⟩ := r
      cases hok
      have hacc0 :
          (⟨fromH.blocks, [], headerSize⟩ : GCState).toUsed =
            headerSize +
              fwdSizesSum (⟨fromH.blocks, [], headerSize⟩ : GCState).fromBlocks := by
        dsimp only
        rw [fwdSizesSum_of_quiet hquiet]
        omega
      have hacc := scanValue_acc fuel _ _ _ _ hscan hacc0
      have hstle := scanValue_stle fuel _ _ _ _ hscan
      have hsizes : sizesSum st.fromBlocks = sizesSum fromH.blocks :=
        forall₂_sizesSum_eq hstle.1
      refine ⟨?_, rfl, st, rfl, rfl, rfl⟩
      dsimp only
      calc st.toUsed = headerSize + fwdSizesSum st.fromBlocks := hacc
    _ ≤ headerSize + sizesSum st.fromBlocks :=
        Nat.add_le_add_left (fwdSizesSum_le_sizesSum _) _
    _ = headerSize + sizesSum fromH.blocks := by rw [hsizes]
    _ = fromH.used := hused.symm

/-- Witness for C3 on a heap holding a reachable String and an unreachable
Blob: after the GC the client heap's `used` drops from 24 to 18 and the
destination heap is reset. -/
theorem c3_gc_swap_and_used_witness :
    (∀ pb ∈ (⟨[(8, ⟨.str, 0, 10, .bytes [104]⟩), (18, ⟨.blob, 0, 6, .bytes [1]⟩)],
               24, .ref 8 .str⟩ : DHeap).blocks, pb.2.fwd = 0) ∧
    ((⟨[(8, ⟨.str, 0, 10, .bytes [104]⟩), (18, ⟨.blob, 0, 6, .bytes [1]⟩)],
        24, .ref 8 .str⟩ : DHeap).used
      = headerSize + sizesSum [(8, ⟨.str, 0, 10, .bytes [104]⟩),
                               (18, ⟨.blob, 0, 6, .bytes [1]⟩)]) ∧
    ((⟨[(8, ⟨.str, 0, 10, .bytes [104]⟩)], 18, .ref 8 .str⟩ : DHeap).used
       ≤ (⟨[(8, ⟨.str, 0, 10, .bytes [104]⟩), (18, ⟨.blob, 0, 6, .bytes [1]⟩)],
            24, .ref 8 .str⟩ : DHeap).used ∧
     (⟨[], headerSize, .prim NullVal⟩ : DHeap)
       = { resetDHeap with blocks := [], used := headerSize, root := .prim NullVal } ∧
     (∃ st', scanValue 3
          ⟨[(8, ⟨.str, 0, 10, .bytes [104]⟩), (18, ⟨.blob, 0, 6, .bytes [1]⟩)],
           [], headerSize⟩ (.ref 8 .str)
          = .ok ((⟨[(8, ⟨.str, 0, 10, .bytes [104]⟩)], 18, .ref 8 .str⟩ : DHeap).root, st') ∧
        (⟨[(8, ⟨.str, 0, 10, .bytes [104]⟩)], 18, .ref 8 .str⟩ : DHeap).blocks = st'.toBlocks ∧
        (⟨[(8, ⟨.str, 0, 10, .bytes [104]⟩)], 18, .ref 8 .str⟩ : DHeap).used = st'.toUsed)) :=
  ⟨by decide, by decide,
   c3_gc_swap_and_used
     ⟨[(8, ⟨.str, 0, 10, .bytes [104]⟩), (18, ⟨.blob, 0, 6, .bytes [1]⟩)],
      24, .ref 8 .str⟩
     resetDHeap 3 (by decide) (by decide)
     ⟨[(8, ⟨.str, 0, 10, .bytes [104]⟩)], 18, .ref 8 .str⟩
     ⟨[], headerSize, .prim NullVal⟩ (by decide)⟩

/-! ### The unimplemented `scanValue` cases (C1, C2) -/

/-- C1 fails on the code: `scanValue` covers only String and Array.
A heap whose root is a Dict hits `abort(); //TODO` (the GC crashes instead
of relocating the dict), and a heap whose root is a Vector "completes" a
GC that copies nothing: the resulting heap has no blocks at all, and its
root still carries the old from-heap position — nothing reachable from the
prior root is preserved. Floats, BigInts, Symbols and Blobs take the same
`default:` branch as Vector. -/
theorem c1_gc_unscanned_types :
    garbageCollectTo ⟨[(8, ⟨.dict, 0, 12, .dictEntries []⟩)], 20, .ref 8 .dict⟩
        resetDHeap 3
      = .error .dictAbort ∧
    garbageCollectTo ⟨[(8, ⟨.vec, 0, 16, .vals [.prim 3]⟩)], 24, .ref 8 .vec⟩
        resetDHeap 3
      = .ok (⟨[], 8, .ref 8 .vec⟩, resetDHeap) := by
  constructor
  · decide
  · decide

/-- C2 fails on the code for the same reason: a Vector block referenced
from two slots of a root Array is copied zero times (not once) — both
relocated slots still hold the old from-heap position 8, and the
destination heap contains no Vector block. For a String block, sharing is
preserved exactly as claimed: one copy at position 20, both relocated
slots resolving to it. -/
theorem c2_sharing_only_for_scanned_types :
    garbageCollectTo
        ⟨[(8, ⟨.vec, 0, 16, .vals [.prim 3]⟩),
          (24, ⟨.arr, 0, 12, .vals [.ref 8 .vec, .ref 8 .vec]⟩)],
         36, .ref 24 .arr⟩ resetDHeap 3
      = .ok (⟨[(8, ⟨.arr, 0, 12, .vals [.ref 8 .vec, .ref 8 .vec]⟩)], 20,
              .ref 8 .arr⟩, resetDHeap) ∧
    garbageCollectTo
        ⟨[(8, ⟨.str, 0, 10, .bytes [104, 105]⟩),
          (18, ⟨.arr, 0, 12, .vals [.ref 8 .str, .ref 8 .str]⟩)],
         30, .ref 18 .arr⟩ resetDHeap 3
      = .ok (⟨[(8, ⟨.arr, 0, 12, .vals [.ref 20 .str, .ref 20 .str]⟩),
               (20, ⟨.str, 0, 10, .bytes [104, 105]⟩)], 30,
              .ref 8 .arr⟩, resetDHeap) := by
  constructor
  · decide
  · decide

end SmolWorld
